import Mathlib

/-!
Verification of the textor state ledger and safe-mutation engine.

The JavaScript source is embedded shallowly: the persistent ledger is the
`TState` structure, the live disk is an association list from relative path
to file content, and every command becomes a pure function on those values.
Content hashing (`calculateHash` in `utils/filesystem.js`) is kept abstract
as a parameter `hashFn : String → String`, since only equality of digests is
ever consulted.
-/

namespace Textor

/-- A ledger entry, `FileRecord` in the spec.  `registerFile` populates
`kind`, `template`, `hash`, `templateVersion`, `owner`, `timestamp`;
entries created by `sync` omit `template`/`templateVersion`/`owner` and set
`synced`, so those fields are optional here. -/
structure FileRecord where
  kind : String
  template : Option String
  hash : String
  templateVersion : Option String
  owner : Option String
  timestamp : String
  synced : Bool
  deriving DecidableEq, Repr

/-- A `Section` ledger entry: `{name, route, featurePath, layout, extension}`.
`route` is `none` for a standalone feature. -/
structure Sec where
  name : String
  route : Option String
  featurePath : String
  layout : Option String
  extension : String
  deriving DecidableEq, Repr

/-- A `Component` ledger entry. -/
structure Comp where
  name : String
  path : String
  deriving DecidableEq, Repr

/-- The `files` map of the ledger: a JS object, i.e. an insertion-ordered
map from project-relative path to record. -/
abbrev FileMap := List (String × FileRecord)

/-- The ledger (`State`): `{sections, components, files}`. -/
structure TState where
  sections : List Sec
  components : List Comp
  files : FileMap
  deriving DecidableEq, Repr

/-- The live disk under the project root: relative forward-slash path to
file content.  A path is on disk iff it has an entry. -/
abbrev Disk := List (String × String)

/-- Model of `existsSync(path.join(cwd, p))` for a relative path `p`. -/
def onDisk (disk : Disk) (p : String) : Bool :=
  (disk.lookup p).isSome

/-- JS property write `m[k] = v`: replaces the value at an existing key in
place, otherwise appends. -/
def setFM : FileMap → String → FileRecord → FileMap
  | [], k, v => [(k, v)]
  | e :: es, k, v => if e.1 = k then (k, v) :: es else e :: setFM es k v

/-- JS `delete m[k]`. -/
def eraseFM (m : FileMap) (k : String) : FileMap :=
  m.filter (fun e => e.1 ≠ k)

/-- In-place mutation `m[k].f = ...` of an existing entry. -/
def updateFM (m : FileMap) (k : String) (f : FileRecord → FileRecord) : FileMap :=
  m.map (fun e => if e.1 = k then (e.1, f e.2) else e)

/-! ### StateStore operations (`src/utils/state.js` / `templates.js`) -/

/-- Source `addSectionToState(section)`: drop every section with the same `route`,
then push (read-modify-write on the loaded state). -/
def addSectionToState (state : TState) (s : Sec) : TState :=
  { state with sections := state.sections.filter (fun x => x.route ≠ s.route) ++ [s] }

/-- Source `removeSectionFromState(route)`: keep sections whose `route` and `name`
both differ from the identifier.  JS compares the possibly-null `route`
field against the string argument with `!==`, so a `null` route never
matches. -/
def removeSectionFromState (state : TState) (route : String) : TState :=
  { state with sections :=
      state.sections.filter (fun s => s.route ≠ some route ∧ s.name ≠ route) }

/-- Source `updateSectionInState(oldRoute, newSection)`: drop sections at
`oldRoute`, then push the new section. -/
def updateSectionInState (state : TState) (oldRoute : String) (ns : Sec) : TState :=
  { state with sections := state.sections.filter (fun s => s.route ≠ some oldRoute) ++ [ns] }

/-- Source `addComponentToState(component)`: drop components with the same `name`,
then push. -/
def addComponentToState (state : TState) (c : Comp) : TState :=
  { state with components := state.components.filter (fun x => x.name ≠ c.name) ++ [c] }

/-- Source `removeComponentFromState(name)`. -/
def removeComponentFromState (state : TState) (name : String) : TState :=
  { state with components := state.components.filter (fun c => c.name ≠ name) }

/-- Routes of the sections list, the key by which sections are unique. -/
def sectionRoutes (l : List Sec) : List (Option String) :=
  l.map (·.route)

/-- Names of the components list, the key by which components are unique. -/
def componentNames (l : List Comp) : List String :=
  l.map (·.name)

/-! ### Ledger persistence (`loadState` / `saveState`) -/

/-- Shape of a successfully parsed ledger document; `files` may be absent
in old documents (`if (!state.files) state.files = {}`). -/
structure RawState where
  sections : List Sec
  components : List Comp
  files : Option FileMap

/-- The empty default state `{sections: [], components: [], files: {}}`. -/
def emptyState : TState := ⟨[], [], []⟩

/-- Source `loadState()`: the ledger file content is `ondisk` (`none` when the
file does not exist) and `parse` embeds `JSON.parse`, returning `none` on a
parse error.  A missing or unparsable ledger yields the empty default; a
parsed document with no `files` member gets an empty map. -/
def loadState (parse : String → Option RawState) (ondisk : Option String) : TState :=
  match ondisk with
  | none => emptyState
  | some content =>
    match parse content with
    | none => emptyState
    | some raw => ⟨raw.sections, raw.components, raw.files.getD []⟩

/-- The parsed form of a serialized state: `JSON.stringify` keeps all three
members, so `files` is present. -/
def rawOf (s : TState) : RawState := ⟨s.sections, s.components, some s.files⟩

/-- Contents of the ledger path and of the temporary file during a save. -/
structure LedgerFS where
  ledger : Option String
  temp : Option String
  deriving DecidableEq, Repr

/-- The effect of each step of `saveState` on the two files, in program
order: write the serialized document to the temp file, `sync` it, `close`
it, then `rename` the temp file over the ledger path (atomic swap). -/
def saveLedgerSteps (doc : String) : List (LedgerFS → LedgerFS) :=
  [fun fs => ⟨fs.ledger, some doc⟩,
   fun fs => fs,
   fun fs => fs,
   fun fs => ⟨fs.temp, none⟩]

/-- Run the first `k` steps of a save of `doc` — the filesystem observed
when the process crashes after `k` completed steps. -/
def runSavePre (doc : String) (k : Nat) (fs : LedgerFS) : LedgerFS :=
  ((saveLedgerSteps doc).take k).foldl (fun a f => f a) fs

/-- Character-level split, the model of the JS `split` / Lean `splitOn`
used by the source on forward-slash and dot separators. -/
def splitOnChar (sep : Char) : List Char → List (List Char)
  | [] => [[]]
  | c :: cs =>
    if c = sep then [] :: splitOnChar sep cs
    else
      match splitOnChar sep cs with
      | [] => [[c]]
      | g :: gs => (c :: g) :: gs

/-- JS `s.split('/')` on a string. -/
def strSplitSlash (s : String) : List String :=
  (splitOnChar '/' s.data).map String.mk

/-- JS `s.split('.')` on a string. -/
def strSplitDot (s : String) : List String :=
  (splitOnChar '.' s.data).map String.mk

/-- JS `s.startsWith(pre)`. -/
def strIsPre (pre s : String) : Bool :=
  List.isPrefixOf pre.data s.data

/-- JS `s.endsWith(sfx)`. -/
def strEndsWith (s sfx : String) : Bool :=
  List.isPrefixOf sfx.data.reverse s.data.reverse

/-- Path normalization applied throughout the source:
`p.replace(/\\/g, '/')`. -/
def jsNormSlashes (s : String) : String :=
  String.mk (s.data.map (fun c => if c = '\\' then '/' else c))

/-- Modelled from the spec: Node's `path.relative(cwd, p)` followed by
backslash normalization, for the case the source relies on — `p` at or
below the project root `cwd` (the "project-root-relative forward-slash
form"). -/
def relForward (cwd p : String) : String :=
  let q := jsNormSlashes p
  let c := jsNormSlashes cwd
  if q = c then ""
  else if strIsPre (c ++ "/") q then q.drop (c.length + 1)
  else q

/-- Source `registerFile` as a pure transformation of the loaded state: store the
record under the normalized relative path. -/
def registerFileState (now cwd filePath kind template hash tmplVersion : String)
    (owner : Option String) (state : TState) : TState :=
  let r := FileRecord.mk kind (some template) hash (some tmplVersion) owner now false
  { state with files := setFM state.files (relForward cwd filePath) r }

/-- Source `registerFile(filePath, {kind, template, hash, templateVersion, owner})`:
load the ledger from `disk`, insert the record, and save — the result is
the new serialized ledger content produced by `serialize`
(`JSON.stringify`). -/
def registerFile (parse : String → Option RawState) (serialize : TState → String)
    (now cwd : String) (disk : Option String)
    (filePath kind template hash tmplVersion : String) (owner : Option String) : String :=
  serialize (registerFileState now cwd filePath kind template hash tmplVersion owner
    (loadState parse disk))

/-! ### String helpers mirroring the JS idioms -/

/-- JS `s.includes(pat)`. -/
def containsSub (s pat : String) : Bool :=
  decide (pat.data <:+: s.data)

/-- Node `path.basename` on a forward-slash path. -/
def basename (s : String) : String :=
  let parts := (strSplitSlash s).filter (fun x => x ≠ "")
  match parts.getLast? with
  | some b => b
  | none => s

/-- Node `path.extname`: the extension of the last path segment, empty for
a dotfile or a segment with no dot. -/
def extname (s : String) : String :=
  let parts := strSplitDot (basename s)
  if 2 ≤ parts.length ∧ ¬(parts.length = 2 ∧ parts.headD "" = "") then
    "." ++ parts.getLastD ""
  else ""

/-- The regex `\.(astro|ts|js|tsx|jsx)$` replace with `''`: strip one of the
recognized page extensions when the string ends with it. -/
def stripPageExt (s : String) : String :=
  if strEndsWith s ".astro" then s.dropRight 6
  else if strEndsWith s ".astro" then s
  else if strEndsWith s ".tsx" then s.dropRight 4
  else if strEndsWith s ".jsx" then s.dropRight 4
  else if strEndsWith s ".ts" then s.dropRight 3
  else if strEndsWith s ".js" then s.dropRight 3
  else s

/-- The regex `\/index$` replace with `''`. -/
def dropIndexSuffix (s : String) : String :=
  if strEndsWith s "/index" then s.dropRight 6 else s

/-- JS `Array.prototype.indexOf`: first index, `-1` when absent. -/
def jsIndexOf (l : List String) (x : String) : Int :=
  if l.contains x then (l.indexOf x : Int) else -1

/-! ### Configuration and the scanning layer -/

/-- The slice of the config the core consults: the managed roots
(`resolvePath(config, 'pages'|'features'|'components')`, as normalized
project-relative paths) and `Object.values(config.signatures)`. -/
structure Config where
  pages : String
  features : String
  components : String
  signatures : List String
  deriving DecidableEq, Repr

/-- Modelled from the spec: `scanDirectory(root, outSet)` of the absent
module `utils/filesystem.js` — walk `root` recursively and collect every
file path, relative and forward-slash normalized.  On the association-list
disk this is the set of paths lying strictly below `root`. -/
def scanRoots (disk : Disk) (roots : List String) : List String :=
  (disk.map Prod.fst).filter (fun p => roots.any (fun r => strIsPre (r ++ "/") p))

/-- Modelled from the spec: `isTextorGenerated(path, signatures)` of the
absent module `utils/filesystem.js` — read the file and check whether its
content contains any of the configured signature markers. -/
def isTextorGenerated (disk : Disk) (sigs : List String) (p : String) : Bool :=
  match disk.lookup p with
  | some c => sigs.any (fun sig => containsSub c sig)
  | none => false

/-! ### Reconciler: `getProjectStatus` (`src/utils/status.js`) -/

/-- The result record of `getProjectStatus`. -/
structure StatusResults where
  missing : List String
  modified : List String
  untracked : List String
  orphaned : List String
  synced : Nat
  deriving DecidableEq, Repr

/-- Source `getProjectStatus(config, state)`: classify every ledger path as
missing / modified / synced against the disk, then classify the remaining
scanned disk files as untracked / orphaned by signature presence.  The loop
that pushes matching paths is rendered as a filter; `diskFiles.delete`
happens exactly for ledger paths that exist on disk. -/
def getProjectStatus (hashFn : String → String) (config : Config)
    (state : TState) (disk : Disk) : StatusResults :=
  let roots := [config.pages, config.features, config.components]
  let diskFiles := scanRoots disk roots
  let missing := (state.files.filter (fun e => ¬ onDisk disk e.1)).map Prod.fst
  let modified := (state.files.filter (fun e =>
      match disk.lookup e.1 with
      | some c => hashFn c ≠ e.2.hash
      | none => false)).map Prod.fst
  let syncedCount := (state.files.filter (fun e =>
      match disk.lookup e.1 with
      | some c => hashFn c = e.2.hash
      | none => false)).length
  let remaining := diskFiles.filter (fun p =>
      ¬ ((state.files.lookup p).isSome ∧ onDisk disk p))
  let untracked := remaining.filter (fun p => isTextorGenerated disk config.signatures p)
  let orphaned := remaining.filter (fun p => ¬ isTextorGenerated disk config.signatures p)
  ⟨missing, modified, untracked, orphaned, syncedCount⟩

/-! ### Metadata reconstruction (`src/utils/state.js` / `templates.js`) -/

/-- One step of `reconstructComponents` for a tracked path: a path below
the components root contributes its first segment below the root as a
component name, first occurrence wins. -/
def componentStep (croot : String) (acc : List Comp) (fp : String) : List Comp :=
  let np := jsNormSlashes fp
  if np = croot ∨ strIsPre (croot ++ "/") np then
    let rel := if np = croot then "" else np.drop (croot.length + 1)
    if rel = "" then acc
    else
      let cname := (strSplitSlash rel).headD ""
      if acc.any (fun c => c.name = cname) then acc
      else acc ++ [Comp.mk cname (croot ++ "/" ++ cname)]
  else acc

/-- Source `reconstructComponents(files, config)`: walk the tracked paths in
order, collecting component names from paths below the components root. -/
def reconstructComponents (files : FileMap) (config : Config) : List Comp :=
  (files.map Prod.fst).foldl (componentStep (jsNormSlashes config.components)) []

/-- The `routeFile` search of `reconstructSections`: a tracked path backs
route `rt` when it extends `pagesRoot/<routePath>.` or equals
`pagesRoot/<routePath>/index.astro`, where `routePath` is `index` for `/`
and the route without its leading slash otherwise. -/
def routeFileHit (pagesRoot rt : String) (nf : String) : Bool :=
  let routePath := if rt = "/" then "index" else rt.drop 1
  strIsPre (pagesRoot ++ "/" ++ routePath ++ ".") nf ∨
    nf = pagesRoot ++ "/" ++ routePath ++ "/index.astro"

/-- The validity check of one existing section inside
`reconstructSections`: `none` models the `TypeError` thrown when
`section.route` is `null` and the callback runs (i.e. there is at least one
tracked file); with no tracked files the `find`/`some` callbacks never run
and the section is simply dropped. -/
def checkSection (pagesRoot : String) (keys : List String) (s : Sec) : Option Bool :=
  if keys.isEmpty then some false
  else
    match s.route with
    | none => none
    | some rt =>
      let hit := keys.any (fun f => routeFileHit pagesRoot rt (jsNormSlashes f))
      let hasFeat := keys.any (fun f =>
        strIsPre (jsNormSlashes s.featurePath ++ "/") (jsNormSlashes f))
      some (hit ∧ hasFeat)

/-- JS `Array.prototype.filter` with a callback that can throw. -/
def filterOpt (f : Sec → Option Bool) : List Sec → Option (List Sec)
  | [] => some []
  | s :: rest =>
    match f s with
    | none => none
    | some b =>
      match filterOpt f rest with
      | none => none
      | some out => some (if b then s :: out else out)

/-- JS `Map.prototype.set` on an insertion-ordered association list. -/
def setAssocSec (m : List (Option String × Sec)) (k : Option String) (v : Sec) :
    List (Option String × Sec) :=
  if m.any (fun e => e.1 = k) then m.map (fun e => if e.1 = k then (k, v) else e)
  else m ++ [(k, v)]

/-- The route a page file discovers in `reconstructSections`:
`'/' + rel.replace(extRegex, '').replace(/\/index$/, '')`. -/
def deriveRoute (pagesRoot np : String) : String :=
  let rel := np.drop (pagesRoot.length + 1)
  let route := "/" ++ dropIndexSuffix (stripPageExt rel)
  if route = "" then "/" else route

/-- The feature-file search predicate of the discovery step: a tracked
path below the features root whose normalized form contains
`/<routeName>/`. -/
def featureProbe (featuresRoot routeName : String) (f : String) : Bool :=
  strIsPre (featuresRoot ++ "/") (jsNormSlashes f) ∧
    containsSub (jsNormSlashes f) ("/" ++ routeName ++ "/")

/-- The section the discovery step of `reconstructSections` builds for a
page file: find a feature file mentioning the route's base name, extract
the feature name as the path segment right after the features base
directory, and pair it with the derived route. -/
def discoveredSec (pagesRoot featuresRoot : String) (keys : List String) (fp : String) :
    Option Sec :=
  let finalRoute := deriveRoute pagesRoot (jsNormSlashes fp)
  let routeName := basename (if finalRoute = "/" then "index" else finalRoute)
  match keys.find? (featureProbe featuresRoot routeName) with
  | none => none
  | some pf =>
    let parts := strSplitSlash (jsNormSlashes pf)
    let fi := jsIndexOf parts (basename featuresRoot) + 1
    if 0 < fi ∧ fi < parts.length then
      match parts.get? fi.toNat with
      | some featureName =>
        some (Sec.mk featureName (some finalRoute)
          (featuresRoot ++ "/" ++ featureName) none (extname fp))
      | none => none
    else none

/-- The discovery step of `reconstructSections` for one tracked path. -/
def discoverStep (pagesRoot featuresRoot : String) (keys : List String)
    (m : List (Option String × Sec)) (fp : String) : List (Option String × Sec) :=
  if strIsPre (pagesRoot ++ "/") (jsNormSlashes fp) then
    if m.any (fun e => e.1 = some (deriveRoute pagesRoot (jsNormSlashes fp))) then m
    else
      match discoveredSec pagesRoot featuresRoot keys fp with
      | none => m
      | some sec => m ++ [(some (deriveRoute pagesRoot (jsNormSlashes fp)), sec)]
  else m

/-- Source `reconstructSections(state, config)`: keep existing sections whose
route file and feature directory are still tracked, then discover sections
for tracked page files at routes not yet present.  `none` models the
`TypeError` on a null-route section (see `checkSection`). -/
def reconstructSections (sections : List Sec) (files : FileMap) (config : Config) :
    Option (List Sec) :=
  let pagesRoot := jsNormSlashes config.pages
  let featuresRoot := jsNormSlashes config.features
  let keys := files.map Prod.fst
  match filterOpt (checkSection pagesRoot keys) sections with
  | none => none
  | some valid =>
    let initMap := valid.foldl (fun m s => setAssocSec m s.route s) []
    let finalMap := keys.foldl (discoverStep pagesRoot featuresRoot keys) initMap
    some (finalMap.map Prod.snd)

/-! ### `sync` (command source: the `syncCommand` module) and `prune` -/

/-- The options `syncCommand` consults on the mutation path. -/
structure SyncOpts where
  force : Bool
  includeAll : Bool
  deriving DecidableEq, Repr

/-- The `missing` list of the `syncCommand` state-file loop: ledger keys
whose file is absent from disk. -/
def syncMissing (state : TState) (disk : Disk) : List String :=
  (state.files.map Prod.fst).filter (fun p => ¬ onDisk disk p)

/-- The working set after the state-file loop: scanned disk files minus
every ledger path that exists on disk (`managedFiles.delete`). -/
def syncManaged (config : Config) (state : TState) (disk : Disk) : List String :=
  (scanRoots disk [config.pages, config.features, config.components]).filter
    (fun p => ¬ ((state.files.map Prod.fst).contains p ∧ onDisk disk p))

/-- The `updated` list: ledger entries whose disk content hashes
differently, collected with their new hash — but only when the file is
still recognized as generated or `force` is set. -/
def syncUpdated (hashFn : String → String) (opts : SyncOpts) (config : Config)
    (state : TState) (disk : Disk) : List (String × String) :=
  state.files.filterMap (fun e =>
    match disk.lookup e.1 with
    | none => none
    | some c =>
      if hashFn c ≠ e.2.hash ∧
          (isTextorGenerated disk config.signatures e.1 = true ∨ opts.force = true) then
        some (e.1, hashFn c)
      else none)

/-- The `added` list: remaining disk files to start tracking — generated
ones, or all of them under `includeAll` — with a freshly computed hash. -/
def syncAdded (hashFn : String → String) (opts : SyncOpts) (config : Config)
    (state : TState) (disk : Disk) : List (String × String) :=
  (syncManaged config state disk).filterMap (fun p =>
    match disk.lookup p with
    | none => none
    | some c =>
      if isTextorGenerated disk config.signatures p = true ∨ opts.includeAll = true then
        some (p, hashFn c)
      else none)

/-- The ledger `files` map after the sync mutations: insert the added
records, update the hashes/timestamps of the updated entries, and drop the
missing entries. -/
def syncFiles (hashFn : String → String) (inferKind : String → Config → String)
    (now : String) (opts : SyncOpts) (config : Config) (state : TState) (disk : Disk) :
    FileMap :=
  (syncMissing state disk).foldl (fun m p => eraseFM m p)
    ((syncUpdated hashFn opts config state disk).foldl
      (fun m pc => updateFM m pc.1
        (fun r => { r with hash := pc.2, timestamp := now, synced := true }))
      ((syncAdded hashFn opts config state disk).foldl
        (fun m pc => setFM m pc.1
          (FileRecord.mk (inferKind pc.1 config) none pc.2 none none now true))
        state.files))

/-- The non-dry-run mutation path of `syncCommand` (the `syncCommand`
module): apply the ledger mutations, then reconstruct
`components`/`sections` — when nothing changed, only if the reconstruction
differs from the stored metadata.  `inferKind` is the helper of the absent
`utils/filesystem.js`, kept abstract; `now` stands for
`new Date().toISOString()`. -/
def syncApply (hashFn : String → String) (inferKind : String → Config → String)
    (now : String) (opts : SyncOpts) (config : Config) (state : TState) (disk : Disk) :
    Option TState :=
  let files3 := syncFiles hashFn inferKind now opts config state disk
  if ¬ (syncAdded hashFn opts config state disk = [] ∧
      syncUpdated hashFn opts config state disk = [] ∧ syncMissing state disk = []) then
    match reconstructSections state.sections files3 config with
    | none => none
    | some secs => some (TState.mk secs (reconstructComponents files3 config) files3)
  else
    match reconstructSections state.sections files3 config with
    | none => none
    | some ns =>
      if reconstructComponents files3 config = state.components ∧ ns = state.sections then
        some state
      else some (TState.mk ns (reconstructComponents files3 config) files3)

/-- The confirmed, non-dry-run path of `pruneMissingCommand`
(`src/commands/prune-missing.js`): with no missing references the command
returns early; otherwise it deletes exactly the `missing` entries from
`state.files` and reconstructs `components` and `sections`. -/
def pruneMissingApply (hashFn : String → String) (config : Config)
    (state : TState) (disk : Disk) : Option TState :=
  let results := getProjectStatus hashFn config state disk
  if results.missing.isEmpty then some state
  else
    let files2 := results.missing.foldl (fun m p => eraseFM m p) state.files
    let comps := reconstructComponents files2 config
    match reconstructSections state.sections files2 config with
    | none => none
    | some secs => some (TState.mk secs comps files2)

/-! ### SafeFileOps: `safeDelete` (spec-modelled) -/

/-- The options object of `safeDelete`. -/
structure SafeDeleteOpts where
  force : Bool
  expectedHash : Option String
  acceptChanges : Bool
  owner : Option String
  actualOwner : Option String
  signatures : List String
  deriving DecidableEq, Repr

/-- The options `safeDelete(p, {expectedHash: h})` with everything else
absent. -/
def onlyExpected (h : Option String) : SafeDeleteOpts :=
  SafeDeleteOpts.mk false h false none none []

/-- The structured result of `safeDelete`: a flag and, for refusals and
no-op deletions, a human-readable message — never an exception. -/
structure DeleteResult where
  deleted : Bool
  message : Option String
  deriving DecidableEq, Repr

/-- Modelled from the spec: `safeDelete(path, {force, expectedHash,
acceptChanges, owner, actualOwner})` of the absent module
`utils/filesystem.js`.  A non-existent path reports nothing to delete.
Otherwise the current content is re-hashed: an ownership conflict between
the requesting owner and the recorded owner refuses even on a hash match; a
matching hash deletes unconditionally; on drift the file is deleted only
under `force`, or `acceptChanges`, or when it still carries a recognized
signature and ownership allows it, and is otherwise refused with a message
explaining the mismatch.  Returns the result together with the disk after
the call. -/
def safeDelete (hashFn : String → String) (disk : Disk) (p : String)
    (opts : SafeDeleteOpts) : DeleteResult × Disk :=
  match disk.lookup p with
  | none => (DeleteResult.mk false (some "nothing to delete"), disk)
  | some c =>
    let ownerConflict := opts.owner.isSome ∧ opts.actualOwner.isSome ∧
      opts.owner ≠ opts.actualOwner
    if ownerConflict then
      (DeleteResult.mk false (some "owned by a different entity"), disk)
    else if some (hashFn c) = opts.expectedHash then
      (DeleteResult.mk true none, disk.filter (fun e => e.1 ≠ p))
    else
      let hasSig := opts.signatures.any (fun sig => containsSub c sig)
      if opts.force ∨ opts.acceptChanges ∨ hasSig then
        (DeleteResult.mk true none, disk.filter (fun e => e.1 ≠ p))
      else
        (DeleteResult.mk false (some "content changed since last generation"), disk)

/-! ### PathGuard: `secureJoin` (spec-modelled) -/

/-- Lexical resolution of `..` and `.` segments against an absolute
component list, the string-level model of Node path resolution. -/
def resolveSegs (acc : List String) : List String → List String
  | [] => acc
  | s :: rest =>
    if s = "" ∨ s = "." then resolveSegs acc rest
    else if s = ".." then resolveSegs (acc.dropLast) rest
    else resolveSegs (acc ++ [s]) rest

/-- Components of an absolute forward-slash path after resolution. -/
def normComponents (p : String) : List String :=
  resolveSegs [] (strSplitSlash p)

/-- Rebuild an absolute path from resolved components. -/
def joinComponents (cs : List String) : String :=
  "/" ++ String.intercalate "/" cs

/-- The descendant check of PathGuard: the resolved path equals the
resolved root or extends it by a path separator. -/
def isDescendant (root p : String) : Bool :=
  let rootN := joinComponents (normComponents root)
  p = rootN ∨ strIsPre (rootN ++ "/") p

/-- Modelled from the spec: `secureJoin(root, ...segments)` of the absent
module `utils/filesystem.js` (PathGuard).  The segments are joined below
`root`, `..`/`.` are resolved lexically, and the result is returned only
when it is still a descendant of `root`; otherwise the call fails with
`PathTraversalError`. -/
def secureJoin (root : String) (segments : List String) : Except String String :=
  let joined := String.intercalate "/" (root :: segments)
  let resolved := joinComponents (normComponents joined)
  if isDescendant root resolved then Except.ok resolved
  else Except.error "PathTraversalError: Path traversal attempt detected"

/-! ### Backing predicates used to state the reconstruction claims -/

/-- A section in the reconstruction output is backed by some tracked file:
either a route file matching its route survives (the `validSections` path)
or some tracked page file derives its route (the discovery path). -/
def sectionBacked (config : Config) (keys : List String) (s : Sec) : Prop :=
  ∃ f ∈ keys,
    (∃ rt, s.route = some rt ∧
        routeFileHit (jsNormSlashes config.pages) rt (jsNormSlashes f) = true) ∨
    (strIsPre (jsNormSlashes config.pages ++ "/") (jsNormSlashes f) = true ∧
      s.route = some (deriveRoute (jsNormSlashes config.pages) (jsNormSlashes f)))

/-- A component in the reconstruction output is backed by a tracked file
below the components root whose first segment is the component's name. -/
def componentBacked (config : Config) (keys : List String) (c : Comp) : Prop :=
  ∃ f ∈ keys,
    strIsPre (jsNormSlashes config.components ++ "/") (jsNormSlashes f) = true ∧
    (strSplitSlash ((jsNormSlashes f).drop ((jsNormSlashes config.components).length + 1))).headD ""
      = c.name

/-- A concrete hash function for the concrete instances: deterministic and
injective on the contents used below. -/
def demoHash (s : String) : String := "h:" ++ s

/-- A concrete configuration for the concrete instances. -/
def demoCfg : Config := ⟨"src/pages", "src/features", "src/components", ["textor:generated"]⟩

/-- A concrete ledger for the sync instance: one entry whose file is gone
and one whose file changed on disk. -/
def demoSyncState : TState :=
  TState.mk [] []
    [("src/pages/gone.astro", FileRecord.mk "route" none "HG" none none "T0" false),
     ("src/pages/mod.astro", FileRecord.mk "route" none "H0" none none "T0" false)]

/-- The matching concrete disk: the modified page still carries the
signature, and a new generated feature file is untracked. -/
def demoSyncDisk : Disk :=
  [("src/pages/mod.astro", "textor:generated new"),
   ("src/features/feat/New.tsx", "textor:generated fresh")]

/-- The ledger the sync instance produces. -/
def demoSyncResult : TState :=
  TState.mk [] []
    [("src/pages/mod.astro",
        FileRecord.mk "route" none "h:textor:generated new" none none "T1" true),
     ("src/features/feat/New.tsx",
        FileRecord.mk "k" none "h:textor:generated fresh" none none "T1" true)]

/-! ### Association-list lemmas -/

theorem lookup_pair_cons {β : Type} (p : String) (e : String × β) (es : List (String × β)) :
    List.lookup p (e :: es) = if p = e.1 then some e.2 else List.lookup p es := by
  by_cases hp : p = e.1
  · obtain ⟨a, b⟩ := e
    simp_all [List.lookup_cons]
  · obtain ⟨a, b⟩ := e
    simp_all [List.lookup_cons, beq_false_of_ne hp]

theorem lookup_setFM_self (m : FileMap) (k : String) (v : FileRecord) :
    (setFM m k v).lookup k = some v := by
  induction m with
  | nil => simp [setFM, lookup_pair_cons]
  | cons e es ih =>
    by_cases h : e.1 = k
    · simp [setFM, h, lookup_pair_cons]
    · simp [setFM, h, lookup_pair_cons, Ne.symm h, ih]

theorem lookup_setFM_other (m : FileMap) (k k' : String) (v : FileRecord)
    (h : k ≠ k') : (setFM m k v).lookup k' = m.lookup k' := by
  induction m with
  | nil => simp [setFM, lookup_pair_cons, Ne.symm h]
  | cons e es ih =>
    by_cases he : e.1 = k
    · subst he
      simp [setFM, lookup_pair_cons, Ne.symm h]
    · simp [setFM, he, lookup_pair_cons, ih]

theorem lookup_updateFM_self (m : FileMap) (k : String) (f : FileRecord → FileRecord) :
    (updateFM m k f).lookup k = (m.lookup k).map f := by
  induction m with
  | nil => simp [updateFM]
  | cons e es ih =>
    by_cases h : e.1 = k
    · simp only [updateFM, List.map_cons, if_pos h]
      rw [lookup_pair_cons, lookup_pair_cons]
      simp [h]
    · simp only [updateFM, List.map_cons, if_neg h] at ih ⊢
      rw [lookup_pair_cons, lookup_pair_cons]
      by_cases hk : k = e.1
      · exact absurd hk.symm h
      · simp [hk, ih]

theorem lookup_updateFM_other (m : FileMap) (k k' : String) (f : FileRecord → FileRecord)
    (h : k ≠ k') : (updateFM m k f).lookup k' = m.lookup k' := by
  induction m with
  | nil => simp [updateFM]
  | cons e es ih =>
    simp only [updateFM, List.map_cons] at ih ⊢
    by_cases he : e.1 = k
    · rw [if_pos he, lookup_pair_cons, lookup_pair_cons]
      have hne : ¬ k' = e.1 := by rw [he]; exact fun hx => h hx.symm
      simp only [if_neg hne]
      exact ih
    · rw [if_neg he, lookup_pair_cons, lookup_pair_cons]
      by_cases hk : k' = e.1
      · simp [hk]
      · simp [hk, ih]

theorem lookup_filter_keyPred (m : FileMap) (q : String → Bool) (p : String) :
    (m.filter (fun e => q e.1)).lookup p = if q p then m.lookup p else none := by
  induction m with
  | nil => simp
  | cons e es ih =>
    by_cases hq : q e.1
    · rw [List.filter_cons_of_pos (by simpa using hq), lookup_pair_cons, lookup_pair_cons]
      by_cases hp : p = e.1
      · subst hp
        simp [hq]
      · simp [hp, ih]
    · rw [List.filter_cons_of_neg (by simpa using hq), lookup_pair_cons, ih]
      by_cases hp : p = e.1
      · subst hp
        simp [hq]
      · simp [hp]

theorem mem_of_lookup_eq_some {β : Type} (m : List (String × β)) (p : String) (r : β)
    (h : m.lookup p = some r) : (p, r) ∈ m := by
  induction m with
  | nil => simp [List.lookup] at h
  | cons e es ih =>
    rw [lookup_pair_cons] at h
    by_cases hp : p = e.1
    · rw [if_pos hp] at h
      obtain ⟨a, b⟩ := e
      cases h
      simp_all
    · rw [if_neg hp] at h
      exact List.mem_cons_of_mem _ (ih h)

theorem lookup_isSome_iff_mem_keys {β : Type} (m : List (String × β)) (p : String) :
    (m.lookup p).isSome = true ↔ p ∈ m.map Prod.fst := by
  induction m with
  | nil => simp [List.lookup]
  | cons e es ih =>
    rw [lookup_pair_cons]
    by_cases hp : p = e.1
    · simp [hp]
    · rw [if_neg hp, ih]
      simp [hp]

theorem lookup_foldl_eraseFM (rem : List String) (m : FileMap) (p : String) :
    (rem.foldl (fun acc k => eraseFM acc k) m).lookup p =
      if rem.contains p then none else m.lookup p := by
  induction rem generalizing m with
  | nil => simp
  | cons r rest ih =>
    rw [List.foldl_cons, ih]
    by_cases hr : rest.contains p
    · have hpmem : p ∈ rest := by simpa using hr
      simp [hr, List.contains_cons, hpmem]
    · rw [if_neg hr]
      have hlf : (eraseFM m r).lookup p = if decide (p ≠ r) then m.lookup p else none :=
        lookup_filter_keyPred m (fun k => decide (k ≠ r)) p
      by_cases hp : p = r
      · subst hp
        simp only [hlf]
        simp [List.contains_cons]
      · simp only [hlf]
        have hnc : ¬ p ∈ rest := by simpa using hr
        simp [List.contains_cons, hp, hnc]

theorem lookup_foldl_setFM_not_mem (l : List (String × String))
    (g : String × String → FileRecord) (m : FileMap) (p : String)
    (hp : ∀ e ∈ l, e.1 ≠ p) :
    (l.foldl (fun acc pc => setFM acc pc.1 (g pc)) m).lookup p = m.lookup p := by
  induction l generalizing m with
  | nil => rfl
  | cons x xs ih =>
    rw [List.foldl_cons, ih _ (fun e he => hp e (List.mem_cons_of_mem _ he))]
    exact lookup_setFM_other m x.1 p (g x) (hp x (List.mem_cons_self x xs))

theorem lookup_foldl_setFM_mem (l : List (String × String))
    (g : String × String → FileRecord) (m : FileMap) (p hv : String) :
    (p, hv) ∈ l → (l.map Prod.fst).Nodup →
    (l.foldl (fun acc pc => setFM acc pc.1 (g pc)) m).lookup p = some (g (p, hv)) := by
  induction l generalizing m with
  | nil => intro hmem _; cases hmem
  | cons x xs ih =>
    intro hmem hnd
    have hnd2 : x.1 ∉ xs.map Prod.fst ∧ (xs.map Prod.fst).Nodup := by
      rw [List.map_cons, List.nodup_cons] at hnd
      exact hnd
    rw [List.foldl_cons]
    rcases List.mem_cons.mp hmem with hx | hx
    · subst hx
      have hrest : ∀ e ∈ xs, e.1 ≠ p := by
        intro e he hc
        exact hnd2.1 (List.mem_map.mpr ⟨e, he, hc⟩)
      rw [lookup_foldl_setFM_not_mem xs g _ p hrest]
      exact lookup_setFM_self m p (g (p, hv))
    · exact ih _ hx hnd2.2

theorem lookup_foldl_updateFM_not_mem (l : List (String × String))
    (u : String × String → FileRecord → FileRecord) (m : FileMap) (p : String)
    (hp : ∀ e ∈ l, e.1 ≠ p) :
    (l.foldl (fun acc pc => updateFM acc pc.1 (u pc)) m).lookup p = m.lookup p := by
  induction l generalizing m with
  | nil => rfl
  | cons x xs ih =>
    rw [List.foldl_cons, ih _ (fun e he => hp e (List.mem_cons_of_mem _ he))]
    exact lookup_updateFM_other m x.1 p (u x) (hp x (List.mem_cons_self x xs))

theorem lookup_foldl_updateFM_mem (l : List (String × String))
    (u : String × String → FileRecord → FileRecord) (m : FileMap) (p hv : String) :
    (p, hv) ∈ l → (l.map Prod.fst).Nodup →
    (l.foldl (fun acc pc => updateFM acc pc.1 (u pc)) m).lookup p =
      (m.lookup p).map (u (p, hv)) := by
  induction l generalizing m with
  | nil => intro hmem _; cases hmem
  | cons x xs ih =>
    intro hmem hnd
    have hnd2 : x.1 ∉ xs.map Prod.fst ∧ (xs.map Prod.fst).Nodup := by
      rw [List.map_cons, List.nodup_cons] at hnd
      exact hnd
    rw [List.foldl_cons]
    rcases List.mem_cons.mp hmem with hx | hx
    · subst hx
      have hrest : ∀ e ∈ xs, e.1 ≠ p := by
        intro e he hc
        exact hnd2.1 (List.mem_map.mpr ⟨e, he, hc⟩)
      rw [lookup_foldl_updateFM_not_mem xs u _ p hrest]
      exact lookup_updateFM_self m p (u (p, hv))
    · have hpx : x.1 ≠ p := by
        intro hc
        exact hnd2.1 (hc ▸ List.mem_map.mpr ⟨(p, hv), hx, rfl⟩)
      rw [← lookup_updateFM_other m x.1 p (u x) hpx]
      exact ih _ hx hnd2.2

theorem keys_filterMap_pairs_sublist {γ : Type} (l : List (String × γ))
    (g : String × γ → Option (String × String))
    (hkey : ∀ e x, g e = some x → x.1 = e.1) :
    ((l.filterMap g).map Prod.fst).Sublist (l.map Prod.fst) := by
  induction l with
  | nil => simp
  | cons e es ih =>
    cases hg : g e with
    | none => simpa [List.filterMap_cons, hg] using ih.cons e.1
    | some x =>
      have : x.1 = e.1 := hkey e x hg
      simpa [List.filterMap_cons, hg, this] using ih.cons₂ e.1

theorem keys_filterMap_strings_sublist (l : List String)
    (g : String → Option (String × String))
    (hkey : ∀ p x, g p = some x → x.1 = p) :
    ((l.filterMap g).map Prod.fst).Sublist l := by
  induction l with
  | nil => simp
  | cons p ps ih =>
    cases hg : g p with
    | none => simpa [List.filterMap_cons, hg] using ih.cons p
    | some x =>
      have : x.1 = p := hkey p x hg
      simpa [List.filterMap_cons, hg, this] using ih.cons₂ p

theorem foldl_all_inv {α β : Type} (step : β → α → β) (Q : β → Prop) (l : List α)
    (init : β) (h0 : Q init) (hstep : ∀ acc a, a ∈ l → Q acc → Q (step acc a)) :
    Q (l.foldl step init) := by
  induction l generalizing init with
  | nil => exact h0
  | cons x xs ih =>
    exact ih (step init x) (hstep init x (List.mem_cons_self x xs) h0)
      (fun acc a ha hq => hstep acc a (List.mem_cons_of_mem _ ha) hq)

theorem mem_filterOpt (f : Sec → Option Bool) (l out : List Sec)
    (h : filterOpt f l = some out) : ∀ s ∈ out, s ∈ l ∧ f s = some true := by
  induction l generalizing out with
  | nil =>
    simp [filterOpt] at h
    subst h
    intro s hs
    cases hs
  | cons x xs ih =>
    simp only [filterOpt] at h
    cases hfx : f x with
    | none => rw [hfx] at h; cases h
    | some b =>
      rw [hfx] at h
      cases hrest : filterOpt f xs with
      | none => rw [hrest] at h; cases h
      | some o =>
        rw [hrest] at h
        cases h
        intro s hs
        cases b with
        | true =>
          rcases List.mem_cons.mp (by simpa using hs) with hx | hx
          · subst hx
            exact ⟨List.mem_cons_self _ _, hfx⟩
          · obtain ⟨h1, h2⟩ := ih o hrest s hx
            exact ⟨List.mem_cons_of_mem _ h1, h2⟩
        | false =>
          obtain ⟨h1, h2⟩ := ih o hrest s (by simpa using hs)
          exact ⟨List.mem_cons_of_mem _ h1, h2⟩

theorem setAssocSec_all (P : Sec → Prop) (m : List (Option String × Sec))
    (k : Option String) (v : Sec) (hm : ∀ e ∈ m, P e.2) (hv : P v) :
    ∀ e ∈ setAssocSec m k v, P e.2 := by
  intro e he
  unfold setAssocSec at he
  by_cases hc : m.any (fun e => e.1 = k)
  · rw [if_pos hc] at he
    rcases List.mem_map.mp he with ⟨x, hx, hxe⟩
    by_cases hk : x.1 = k
    · rw [if_pos hk] at hxe
      rw [← hxe]
      exact hv
    · rw [if_neg hk] at hxe
      rw [← hxe]
      exact hm x hx
  · rw [if_neg hc] at he
    rcases List.mem_append.mp he with hx | hx
    · exact hm e hx
    · simp at hx
      rw [hx]
      exact hv

theorem filter3_length (l : FileMap) (a b c : (String × FileRecord) → Bool)
    (h : ∀ x, (a x = true ∧ b x = false ∧ c x = false) ∨
      (a x = false ∧ b x = true ∧ c x = false) ∨
      (a x = false ∧ b x = false ∧ c x = true)) :
    (l.filter a).length + (l.filter b).length + (l.filter c).length = l.length := by
  induction l with
  | nil => simp
  | cons x xs ih =>
    rcases h x with ⟨h1, h2, h3⟩ | ⟨h1, h2, h3⟩ | ⟨h1, h2, h3⟩ <;>
      simp [List.filter_cons, h1, h2, h3] <;> omega

/-! ### Backing lemmas for the reconstruction functions -/

theorem componentStep_origin (croot : String) (acc : List Comp) (fp : String) :
    ∀ c ∈ componentStep croot acc fp, c ∈ acc ∨
      (strIsPre (croot ++ "/") (jsNormSlashes fp) = true ∧
        (strSplitSlash ((jsNormSlashes fp).drop (croot.length + 1))).headD "" = c.name) := by
  intro c hc
  by_cases h2 : jsNormSlashes fp = croot
  · have hstep : componentStep croot acc fp = acc := by
      simp [componentStep, h2]
    rw [hstep] at hc
    exact Or.inl hc
  · by_cases hpre : strIsPre (croot ++ "/") (jsNormSlashes fp) = true
    · by_cases h3 : (jsNormSlashes fp).drop (croot.length + 1) = ""
      · have hstep : componentStep croot acc fp = acc := by
          simp [componentStep, h2, hpre, h3]
        rw [hstep] at hc
        exact Or.inl hc
      · by_cases h4 : (acc.any fun c =>
            c.name = (strSplitSlash ((jsNormSlashes fp).drop (croot.length + 1))).headD "") = true
        · have hstep : componentStep croot acc fp = acc := by
            simp only [componentStep, if_neg h2]
            rw [if_pos (Or.inr hpre), if_neg h3, if_pos h4]
          rw [hstep] at hc
          exact Or.inl hc
        · have hstep : componentStep croot acc fp = acc ++
              [Comp.mk ((strSplitSlash ((jsNormSlashes fp).drop (croot.length + 1))).headD "")
                (croot ++ "/" ++ (strSplitSlash ((jsNormSlashes fp).drop (croot.length + 1))).headD "")] := by
            simp only [componentStep, if_neg h2]
            rw [if_pos (Or.inr hpre), if_neg h3, if_neg h4]
          rw [hstep] at hc
          rcases List.mem_append.mp hc with hx | hx
          · exact Or.inl hx
          · right
            refine ⟨hpre, ?_⟩
            rw [List.mem_singleton.mp hx]
    · have hstep : componentStep croot acc fp = acc := by
        simp [componentStep, h2, hpre]
      rw [hstep] at hc
      exact Or.inl hc

theorem reconstructComponents_backed (files : FileMap) (config : Config) :
    ∀ c ∈ reconstructComponents files config,
      componentBacked config (files.map Prod.fst) c := by
  unfold reconstructComponents
  refine foldl_all_inv _ (fun acc => ∀ c ∈ acc,
    componentBacked config (files.map Prod.fst) c) _ [] (by simp) ?_
  intro acc fp hfp hacc c hc
  rcases componentStep_origin (jsNormSlashes config.components) acc fp c hc with hx | ⟨h1, h2⟩
  · exact hacc c hx
  · exact ⟨fp, hfp, h1, h2⟩

theorem checkSection_true (pr : String) (keys : List String) (s : Sec)
    (h : checkSection pr keys s = some true) :
    ∃ rt, s.route = some rt ∧ ∃ f ∈ keys, routeFileHit pr rt (jsNormSlashes f) = true := by
  unfold checkSection at h
  by_cases hk : keys.isEmpty
  · rw [if_pos hk] at h
    cases h
  · rw [if_neg hk] at h
    cases hr : s.route with
    | none => rw [hr] at h; cases h
    | some rt =>
      rw [hr] at h
      refine ⟨rt, rfl, ?_⟩
      have hb := Option.some.inj h
      have hhit : keys.any (fun f => routeFileHit pr rt (jsNormSlashes f)) = true := by
        by_cases hx : keys.any (fun f => routeFileHit pr rt (jsNormSlashes f)) = true
        · exact hx
        · simp [hx] at hb
      rcases List.any_eq_true.mp hhit with ⟨f, hf, hft⟩
      exact ⟨f, hf, by simpa using hft⟩

theorem discoveredSec_route (pr fr : String) (keys : List String) (fp : String)
    (sec : Sec) (h : discoveredSec pr fr keys fp = some sec) :
    sec.route = some (deriveRoute pr (jsNormSlashes fp)) := by
  simp only [discoveredSec] at h
  split at h
  · cases h
  · split at h
    · split at h
      · cases h
        rfl
      · cases h
    · cases h

theorem discoverStep_all (P : Sec → Prop) (pr fr : String) (keys : List String)
    (m : List (Option String × Sec)) (fp : String)
    (hm : ∀ e ∈ m, P e.2)
    (hnew : ∀ sec, discoveredSec pr fr keys fp = some sec →
      strIsPre (pr ++ "/") (jsNormSlashes fp) = true → P sec) :
    ∀ e ∈ discoverStep pr fr keys m fp, P e.2 := by
  intro e he
  unfold discoverStep at he
  by_cases h1 : strIsPre (pr ++ "/") (jsNormSlashes fp)
  · rw [if_pos h1] at he
    by_cases h2 : m.any (fun e => e.1 = some (deriveRoute pr (jsNormSlashes fp)))
    · rw [if_pos h2] at he
      exact hm e he
    · rw [if_neg h2] at he
      cases hds : discoveredSec pr fr keys fp with
      | none =>
        rw [hds] at he
        exact hm e he
      | some sec =>
        rw [hds] at he
        rcases List.mem_append.mp he with hx | hx
        · exact hm e hx
        · simp at hx
          rw [hx]
          exact hnew sec hds h1
  · rw [if_neg h1] at he
    exact hm e he

theorem reconstructSections_backed (sections : List Sec) (files : FileMap)
    (config : Config) (secs : List Sec)
    (h : reconstructSections sections files config = some secs) :
    ∀ s ∈ secs, sectionBacked config (files.map Prod.fst) s := by
  simp only [reconstructSections] at h
  cases hfo : filterOpt (checkSection (jsNormSlashes config.pages) (files.map Prod.fst))
      sections with
  | none => rw [hfo] at h; cases h
  | some valid =>
    rw [hfo] at h
    have hvalid : ∀ s ∈ valid, sectionBacked config (files.map Prod.fst) s := by
      intro s hs
      obtain ⟨_, hcheck⟩ := mem_filterOpt _ _ _ hfo s hs
      obtain ⟨rt, hrt, f, hf, hhit⟩ := checkSection_true _ _ _ hcheck
      exact ⟨f, hf, Or.inl ⟨rt, hrt, hhit⟩⟩
    have hinit : ∀ e ∈ valid.foldl (fun m s => setAssocSec m s.route s)
        ([] : List (Option String × Sec)), sectionBacked config (files.map Prod.fst) e.2 := by
      refine foldl_all_inv _ (fun (m : List (Option String × Sec)) => ∀ e ∈ m,
        sectionBacked config (files.map Prod.fst) e.2) _ [] (by simp) ?_
      intro acc s hs hacc
      exact setAssocSec_all _ acc s.route s hacc (hvalid s hs)
    have hfinal : ∀ e ∈ (files.map Prod.fst).foldl
        (discoverStep (jsNormSlashes config.pages) (jsNormSlashes config.features)
          (files.map Prod.fst))
        (valid.foldl (fun m s => setAssocSec m s.route s) []),
        sectionBacked config (files.map Prod.fst) e.2 := by
      refine foldl_all_inv _ (fun (m : List (Option String × Sec)) => ∀ e ∈ m,
        sectionBacked config (files.map Prod.fst) e.2) _ _ hinit ?_
      intro acc fp hfp hacc
      refine discoverStep_all _ _ _ _ _ _ hacc ?_
      intro sec hds h1
      refine ⟨fp, hfp, Or.inr ⟨h1, ?_⟩⟩
      exact (discoveredSec_route _ _ _ _ _ hds).symm ▸ rfl
    cases h
    intro s hs
    rcases List.mem_map.mp hs with ⟨e, he, rfl⟩
    exact hfinal e he

theorem nodup_filter_push {α κ : Type} [DecidableEq κ] (key : α → κ) (l : List α) (a : α)
    (p : α → Bool) (hnd : (l.map key).Nodup) (hp : ∀ t ∈ l, p t = true → key t ≠ key a) :
    ((l.filter p ++ [a]).map key).Nodup := by
  rw [List.map_append]
  refine List.Nodup.append ?_ (by simp) ?_
  · exact hnd.sublist (List.Sublist.map key (List.filter_sublist l))
  · intro b hb hb2
    simp at hb2
    rcases List.mem_map.mp hb with ⟨t, ht, hteq⟩
    rcases List.mem_filter.mp ht with ⟨htl, htp⟩
    exact hp t htl htp (hteq.trans hb2)

/-- Equality of `secureJoin` results is decidable, so concrete path-guard
outcomes can be checked by evaluation. -/
instance : DecidableEq (Except String String) := fun a b =>
  match a, b with
  | Except.ok x, Except.ok y =>
    if h : x = y then Decidable.isTrue (by rw [h])
    else Decidable.isFalse (fun hx => h (Except.ok.inj hx))
  | Except.error x, Except.error y =>
    if h : x = y then Decidable.isTrue (by rw [h])
    else Decidable.isFalse (fun hx => h (Except.error.inj hx))
  | Except.ok _, Except.error _ => Decidable.isFalse (fun hx => Except.noConfusion hx)
  | Except.error _, Except.ok _ => Decidable.isFalse (fun hx => Except.noConfusion hx)

/-! ### Claim theorems -/

/-- C10: for every state and identifier `x`, `removeSectionFromState(x)`
removes exactly those sections whose `route` equals `x` or whose `name`
equals `x`; so a section whose name coincides with the supplied route
string is removed even when its route differs, and a standalone section
(route `null`) can be removed by its name. -/
theorem removeSectionFromState_route_or_name (state : TState) (x : String) :
    ∀ s, s ∈ (removeSectionFromState state x).sections ↔
      s ∈ state.sections ∧ ¬ (s.route = some x ∨ s.name = x) := by
  intro s
  simp [removeSectionFromState, List.mem_filter, not_or]

/-- C8 counterexample: starting from two sections with distinct routes
`/a` and `/b`, a single `updateSectionInState('/a', ...)` whose new section
carries route `/b` leaves two sections with route `/b`, so the claimed
uniqueness invariant is not preserved by every mutation. -/
theorem updateSection_breaks_route_uniqueness :
    (sectionRoutes (TState.mk [Sec.mk "A" (some "/a") "fa" none ".astro",
        Sec.mk "B" (some "/b") "fb" none ".astro"] [] []).sections).Nodup ∧
    (componentNames (TState.mk [Sec.mk "A" (some "/a") "fa" none ".astro",
        Sec.mk "B" (some "/b") "fb" none ".astro"] [] []).components).Nodup ∧
    ¬ (sectionRoutes (updateSectionInState
        (TState.mk [Sec.mk "A" (some "/a") "fa" none ".astro",
          Sec.mk "B" (some "/b") "fb" none ".astro"] [] [])
        "/a" (Sec.mk "B2" (some "/b") "fb2" none ".astro")).sections).Nodup := by
  refine ⟨by decide, by decide, by decide⟩

/-- C8 (amended): starting from a state whose sections carry pairwise
distinct routes and whose components carry pairwise distinct names, every
single StateStore mutation preserves both uniqueness keys — where
`updateSectionInState` preserves them provided no surviving section already
carries the new section's route (in particular whenever the route is
unchanged); without that proviso the invariant can break, as the
counterexample shows. -/
theorem stateOps_preserve_key_uniqueness (state : TState) (s : Sec) (c : Comp)
    (x oldRoute : String) (ns : Sec)
    (hs : (sectionRoutes state.sections).Nodup)
    (hc : (componentNames state.components).Nodup)
    (hupd : ∀ t ∈ state.sections, t.route ≠ some oldRoute → t.route ≠ ns.route) :
    ((sectionRoutes (addSectionToState state s).sections).Nodup ∧
      (componentNames (addSectionToState state s).components).Nodup) ∧
    ((sectionRoutes (removeSectionFromState state x).sections).Nodup ∧
      (componentNames (removeSectionFromState state x).components).Nodup) ∧
    ((sectionRoutes (updateSectionInState state oldRoute ns).sections).Nodup ∧
      (componentNames (updateSectionInState state oldRoute ns).components).Nodup) ∧
    ((sectionRoutes (addComponentToState state c).sections).Nodup ∧
      (componentNames (addComponentToState state c).components).Nodup) ∧
    ((sectionRoutes (removeComponentFromState state x).sections).Nodup ∧
      (componentNames (removeComponentFromState state x).components).Nodup) := by
  simp only [sectionRoutes, componentNames, addSectionToState, removeSectionFromState,
    updateSectionInState, addComponentToState, removeComponentFromState] at hs hc ⊢
  refine ⟨⟨?_, hc⟩, ⟨?_, hc⟩, ⟨?_, hc⟩, ⟨hs, ?_⟩, ⟨hs, ?_⟩⟩
  · refine nodup_filter_push (fun t : Sec => t.route) state.sections s _ hs ?_
    intro t _ htp
    simpa using htp
  · exact hs.sublist (List.Sublist.map _ (List.filter_sublist state.sections))
  · refine nodup_filter_push (fun t : Sec => t.route) state.sections ns _ hs ?_
    intro t htl htp
    exact hupd t htl (by simpa using htp)
  · refine nodup_filter_push (fun t : Comp => t.name) state.components c _ hc ?_
    intro t _ htp
    simpa using htp
  · exact hc.sublist (List.Sublist.map _ (List.filter_sublist state.components))

/-- C8 witness: the amended statement at a concrete state, with the
update proviso discharged (the update keeps the route). -/
theorem stateOps_preserve_key_uniqueness_witness :
    ((sectionRoutes (addSectionToState (TState.mk [Sec.mk "A" (some "/a") "fa" none ".astro"] [Comp.mk "C" "src/components/C"] [])
        (Sec.mk "B" (some "/b") "fb" none ".astro")).sections).Nodup ∧
      (componentNames (addSectionToState (TState.mk [Sec.mk "A" (some "/a") "fa" none ".astro"] [Comp.mk "C" "src/components/C"] [])
        (Sec.mk "B" (some "/b") "fb" none ".astro")).components).Nodup) ∧
    ((sectionRoutes (removeSectionFromState (TState.mk [Sec.mk "A" (some "/a") "fa" none ".astro"] [Comp.mk "C" "src/components/C"] []) "/a").sections).Nodup ∧
      (componentNames (removeSectionFromState (TState.mk [Sec.mk "A" (some "/a") "fa" none ".astro"] [Comp.mk "C" "src/components/C"] []) "/a").components).Nodup) ∧
    ((sectionRoutes (updateSectionInState (TState.mk [Sec.mk "A" (some "/a") "fa" none ".astro"] [Comp.mk "C" "src/components/C"] []) "/a"
        (Sec.mk "A2" (some "/a") "fa2" none ".astro")).sections).Nodup ∧
      (componentNames (updateSectionInState (TState.mk [Sec.mk "A" (some "/a") "fa" none ".astro"] [Comp.mk "C" "src/components/C"] []) "/a"
        (Sec.mk "A2" (some "/a") "fa2" none ".astro")).components).Nodup) ∧
    ((sectionRoutes (addComponentToState (TState.mk [Sec.mk "A" (some "/a") "fa" none ".astro"] [Comp.mk "C" "src/components/C"] [])
        (Comp.mk "D" "src/components/D")).sections).Nodup ∧
      (componentNames (addComponentToState (TState.mk [Sec.mk "A" (some "/a") "fa" none ".astro"] [Comp.mk "C" "src/components/C"] [])
        (Comp.mk "D" "src/components/D")).components).Nodup) ∧
    ((sectionRoutes (removeComponentFromState (TState.mk [Sec.mk "A" (some "/a") "fa" none ".astro"] [Comp.mk "C" "src/components/C"] []) "/a").sections).Nodup ∧
      (componentNames (removeComponentFromState (TState.mk [Sec.mk "A" (some "/a") "fa" none ".astro"] [Comp.mk "C" "src/components/C"] []) "/a").components).Nodup) :=
  stateOps_preserve_key_uniqueness
    (TState.mk [Sec.mk "A" (some "/a") "fa" none ".astro"] [Comp.mk "C" "src/components/C"] [])
    (Sec.mk "B" (some "/b") "fb" none ".astro") (Comp.mk "D" "src/components/D")
    "/a" "/a" (Sec.mk "A2" (some "/a") "fa2" none ".astro")
    (by decide) (by decide) (by decide)

/-- C3: every `saveState(state)` serializes the state, writes it to a
fresh temporary file, syncs it, and renames it over the ledger path; a
crash after any number `k` of completed steps — whatever partial content
`tmp` the temporary file holds — leaves the ledger path with either the
complete pre-save content or the complete post-save serialization, never a
truncated document. -/
theorem saveState_atomic (serialize : TState → String) (state : TState)
    (old tmp : Option String) (k : Nat) :
    (runSavePre (serialize state) k (LedgerFS.mk old tmp)).ledger = old ∨
    (runSavePre (serialize state) k (LedgerFS.mk old tmp)).ledger =
      some (serialize state) := by
  match k with
  | 0 => exact Or.inl rfl
  | 1 => exact Or.inl rfl
  | 2 => exact Or.inl rfl
  | 3 => exact Or.inl rfl
  | (n + 4) =>
    right
    have htake : (saveLedgerSteps (serialize state)).take (n + 4) =
        saveLedgerSteps (serialize state) :=
      List.take_of_length_le (by simp [saveLedgerSteps])
    unfold runSavePre
    rw [htake]
    rfl

/-- C4: whenever the ledger file does not exist, or exists but fails to
parse, `loadState()` returns the empty default state and never throws
(it is a total function of the file content). -/
theorem loadState_defaults (parse : String → Option RawState) (c : String)
    (h : parse c = none) :
    loadState parse none = emptyState ∧ loadState parse (some c) = emptyState := by
  constructor
  · rfl
  · simp [loadState, h]

/-- C4 witness: a parse function failing on a concrete corrupt document. -/
theorem loadState_defaults_witness :
    ((fun _ : String => (none : Option RawState)) "corrupt" = none) ∧
    (loadState (fun _ => none) none = emptyState ∧
      loadState (fun _ => none) (some "corrupt") = emptyState) :=
  ⟨rfl, loadState_defaults (fun _ => none) "corrupt" rfl⟩

/-- C9: `secureJoin` either returns a path that is a descendant of its
root or fails with `PathTraversalError`; in particular
`resolve('/proj/src/pages', '../../etc/passwd')` fails, so no path
escaping its root is ever handed to a write/delete/move operation. -/
theorem secureJoin_guard (root : String) (segments : List String) :
    (∀ p, secureJoin root segments = Except.ok p → isDescendant root p = true) ∧
    secureJoin "/proj/src/pages" ["../../etc/passwd"] =
      Except.error "PathTraversalError: Path traversal attempt detected" := by
  constructor
  · intro p hp
    simp only [secureJoin] at hp
    split_ifs at hp with h
    cases hp
    exact h
  · decide

/-- C9 witness: a successful resolution whose result the theorem certifies
as a descendant of the root. -/
theorem secureJoin_guard_witness :
    secureJoin "/proj" ["src", "pages"] = Except.ok "/proj/src/pages" ∧
    isDescendant "/proj" "/proj/src/pages" = true :=
  ⟨by decide, (secureJoin_guard "/proj" ["src", "pages"]).1 "/proj/src/pages" (by decide)⟩

/-- C1: for a tracked file with ledger hash `H0`: if the on-disk content
hashes to `H0`, `safeDelete(p, {expectedHash: H0})` deletes the file; if it
hashes differently, the same call refuses with a structured skip and an
unchanged disk while adding `force: true` deletes it; and on a non-existent
path `safeDelete` returns `deleted: false` with no exception, on this and on
every repeated call. -/
theorem safeDelete_conflict_law (hashFn : String → String) (disk : Disk)
    (p hzero : String) :
    (∀ c, disk.lookup p = some c → hashFn c = hzero →
      safeDelete hashFn disk p (onlyExpected (some hzero)) =
        (DeleteResult.mk true none, disk.filter (fun e => e.1 ≠ p))) ∧
    (∀ c, disk.lookup p = some c → hashFn c ≠ hzero →
      safeDelete hashFn disk p (onlyExpected (some hzero)) =
        (DeleteResult.mk false (some "content changed since last generation"), disk)) ∧
    (∀ c, disk.lookup p = some c → hashFn c ≠ hzero →
      (safeDelete hashFn disk p
        { onlyExpected (some hzero) with force := true }).1.deleted = true) ∧
    (disk.lookup p = none →
      safeDelete hashFn disk p (onlyExpected (some hzero)) =
        (DeleteResult.mk false (some "nothing to delete"), disk) ∧
      (safeDelete hashFn (safeDelete hashFn disk p (onlyExpected (some hzero))).2 p
        (onlyExpected (some hzero))).1 =
        DeleteResult.mk false (some "nothing to delete")) := by
  refine ⟨?_, ?_, ?_, ?_⟩
  · intro c hc hh
    simp [safeDelete, hc, onlyExpected, hh]
  · intro c hc hh
    simp [safeDelete, hc, onlyExpected, hh, containsSub]
  · intro c hc hh
    simp [safeDelete, hc, onlyExpected, hh]
  · intro hc
    constructor
    · simp [safeDelete, hc, onlyExpected]
    · simp [safeDelete, hc, onlyExpected]

/-- C1 witness: the conflict law on a one-file disk — hash match deletes,
drift refuses with the disk untouched, drift plus `force` deletes, and a
missing path reports `deleted: false` twice in a row. -/
theorem safeDelete_conflict_law_witness :
    (safeDelete demoHash [("p", "C")] "p" (onlyExpected (some "h:C"))).1.deleted = true ∧
    safeDelete demoHash [("p", "C")] "p" (onlyExpected (some "H0")) =
      (DeleteResult.mk false (some "content changed since last generation"), [("p", "C")]) ∧
    (safeDelete demoHash [("p", "C")] "p"
      { onlyExpected (some "H0") with force := true }).1.deleted = true ∧
    (safeDelete demoHash [("p", "C")] "q" (onlyExpected (some "H0"))).1 =
      DeleteResult.mk false (some "nothing to delete") := by
  refine ⟨?_, ?_, ?_, ?_⟩
  · rw [((safeDelete_conflict_law demoHash [("p", "C")] "p" "h:C").1 "C" rfl rfl)]
  · exact ((safeDelete_conflict_law demoHash [("p", "C")] "p" "H0").2.1 "C" rfl (by decide))
  · exact ((safeDelete_conflict_law demoHash [("p", "C")] "p" "H0").2.2.1 "C" rfl (by decide))
  · exact ((safeDelete_conflict_law demoHash [("p", "C")] "q" "H0").2.2.2 rfl).1 ▸ rfl

/-- C7: after `registerFile(p, r)`, a `loadState()` that reads back the
just-saved document yields at the project-root-relative forward-slash form
of `p` exactly the registered record — `r` together with the timestamp
(round-trip through the persisted ledger, assuming `JSON.parse` inverts
`JSON.stringify` on the saved document). -/
theorem registerFile_roundTrip (parse : String → Option RawState)
    (serialize : TState → String) (now cwd : String) (disk : Option String)
    (filePath kind template hash tv : String) (owner : Option String)
    (h : parse (registerFile parse serialize now cwd disk filePath kind template hash tv owner)
      = some (rawOf (registerFileState now cwd filePath kind template hash tv owner
          (loadState parse disk)))) :
    (loadState parse (some (registerFile parse serialize now cwd disk filePath kind
        template hash tv owner))).files.lookup (relForward cwd filePath) =
      some (FileRecord.mk kind (some template) hash (some tv) owner now false) := by
  simp only [loadState, h, rawOf, Option.getD, registerFileState]
  exact lookup_setFM_self _ _ _

/-- C7 witness: a concrete registration on an empty ledger with a codec
pair that inverts on the saved document. -/
theorem registerFile_roundTrip_witness :
    ((fun _ : String => some (rawOf (registerFileState "T0" "/proj" "/proj/src/pages/a.astro"
        "route" "tpl" "H" "1.0.0" none emptyState)))
      (registerFile (fun _ => some (rawOf (registerFileState "T0" "/proj"
        "/proj/src/pages/a.astro" "route" "tpl" "H" "1.0.0" none emptyState)))
        (fun _ => "doc") "T0" "/proj" none "/proj/src/pages/a.astro" "route" "tpl" "H"
        "1.0.0" none)
      = some (rawOf (registerFileState "T0" "/proj" "/proj/src/pages/a.astro" "route" "tpl"
          "H" "1.0.0" none (loadState (fun _ => some (rawOf (registerFileState "T0" "/proj"
            "/proj/src/pages/a.astro" "route" "tpl" "H" "1.0.0" none emptyState))) none)))) ∧
    (loadState (fun _ => some (rawOf (registerFileState "T0" "/proj" "/proj/src/pages/a.astro"
        "route" "tpl" "H" "1.0.0" none emptyState)))
      (some (registerFile (fun _ => some (rawOf (registerFileState "T0" "/proj"
        "/proj/src/pages/a.astro" "route" "tpl" "H" "1.0.0" none emptyState)))
        (fun _ => "doc") "T0" "/proj" none "/proj/src/pages/a.astro" "route" "tpl" "H"
        "1.0.0" none))).files.lookup (relForward "/proj" "/proj/src/pages/a.astro") =
      some (FileRecord.mk "route" (some "tpl") "H" (some "1.0.0") none "T0" false) :=
  ⟨rfl, registerFile_roundTrip _ _ _ _ _ _ _ _ _ _ _ rfl⟩

/-- C2: `getProjectStatus` classifies each path in the union of ledger
keys and disk files under the managed roots into exactly one category — a
ledger path absent from disk is `missing`; present with a differing hash,
`modified`; present with the ledger hash, counted in `synced` (so the three
tallies partition the ledger); and a scanned disk file with no ledger entry
is `untracked` when its content carries a recognized signature and
`orphaned` otherwise. -/
theorem getProjectStatus_classification (hashFn : String → String) (config : Config)
    (state : TState) (disk : Disk) :
    (∀ p, p ∈ (getProjectStatus hashFn config state disk).missing ↔
      (∃ r, (p, r) ∈ state.files) ∧ disk.lookup p = none) ∧
    (∀ p, p ∈ (getProjectStatus hashFn config state disk).modified ↔
      ∃ r c, (p, r) ∈ state.files ∧ disk.lookup p = some c ∧ hashFn c ≠ r.hash) ∧
    ((getProjectStatus hashFn config state disk).missing.length +
      (getProjectStatus hashFn config state disk).modified.length +
      (getProjectStatus hashFn config state disk).synced = state.files.length) ∧
    (∀ p, p ∈ (getProjectStatus hashFn config state disk).untracked ↔
      p ∈ scanRoots disk [config.pages, config.features, config.components] ∧
      state.files.lookup p = none ∧
      isTextorGenerated disk config.signatures p = true) ∧
    (∀ p, p ∈ (getProjectStatus hashFn config state disk).orphaned ↔
      p ∈ scanRoots disk [config.pages, config.features, config.components] ∧
      state.files.lookup p = none ∧
      isTextorGenerated disk config.signatures p = false) := by
  have hscan : ∀ p, p ∈ scanRoots disk [config.pages, config.features, config.components] →
      onDisk disk p = true := by
    intro p hp
    rcases List.mem_filter.mp hp with ⟨hp1, _⟩
    exact (lookup_isSome_iff_mem_keys disk p).mpr hp1
  refine ⟨?_, ?_, ?_, ?_, ?_⟩
  · intro p
    constructor
    · intro hp
      rcases List.mem_map.mp hp with ⟨e, he, rfl⟩
      rcases List.mem_filter.mp he with ⟨h1, h2⟩
      simp only [onDisk, decide_eq_true_eq, Option.not_isSome_iff_eq_none] at h2
      exact ⟨⟨e.2, h1⟩, h2⟩
    · rintro ⟨⟨r, hr⟩, hnone⟩
      exact List.mem_map.mpr ⟨(p, r), List.mem_filter.mpr
        ⟨hr, by simp [onDisk, hnone]⟩, rfl⟩
  · intro p
    constructor
    · intro hp
      rcases List.mem_map.mp hp with ⟨e, he, rfl⟩
      rcases List.mem_filter.mp he with ⟨h1, h2⟩
      cases hd : disk.lookup e.1 with
      | none => rw [hd] at h2; cases h2
      | some c =>
        rw [hd] at h2
        simp only [decide_eq_true_eq] at h2
        exact ⟨e.2, c, h1, rfl, h2⟩
    · rintro ⟨r, c, hr, hd, hne⟩
      refine List.mem_map.mpr ⟨(p, r), List.mem_filter.mpr ⟨hr, ?_⟩, rfl⟩
      rw [hd]
      simpa using hne
  · simp only [getProjectStatus, List.length_map]
    refine filter3_length state.files _ _ _ ?_
    intro x
    cases hd : disk.lookup x.1 with
    | none => exact Or.inl (by simp [onDisk, hd])
    | some c =>
      by_cases hh : hashFn c = x.2.hash
      · refine Or.inr (Or.inr ?_)
        simp [onDisk, hd, hh]
      · refine Or.inr (Or.inl ?_)
        simp [onDisk, hd, hh]
  · intro p
    constructor
    · intro hp
      rcases List.mem_filter.mp hp with ⟨hp1, hg⟩
      rcases List.mem_filter.mp hp1 with ⟨hscanp, hcond⟩
      refine ⟨hscanp, ?_, by simpa using hg⟩
      simp only [decide_eq_true_eq, not_and] at hcond
      have := hcond
      rcases hd : (state.files.lookup p).isSome with _ | _
      · exact Option.not_isSome_iff_eq_none.mp (by simp [hd])
      · exact absurd (hscan p hscanp) (by simpa using this (by simp [hd]))
    · rintro ⟨hscanp, hnone, hg⟩
      refine List.mem_filter.mpr ⟨List.mem_filter.mpr ⟨hscanp, ?_⟩, by simpa using hg⟩
      simp [hnone]
  · intro p
    constructor
    · intro hp
      rcases List.mem_filter.mp hp with ⟨hp1, hg⟩
      rcases List.mem_filter.mp hp1 with ⟨hscanp, hcond⟩
      refine ⟨hscanp, ?_, by simpa using hg⟩
      simp only [decide_eq_true_eq, not_and] at hcond
      rcases hd : (state.files.lookup p).isSome with _ | _
      · exact Option.not_isSome_iff_eq_none.mp (by simp [hd])
      · exact absurd (hscan p hscanp) (by simpa using hcond (by simp [hd]))
    · rintro ⟨hscanp, hnone, hg⟩
      refine List.mem_filter.mpr ⟨List.mem_filter.mpr ⟨hscanp, ?_⟩, by simpa using hg⟩
      simp [hnone]

/-- C6: a confirmed, non-dry-run prune removes from `state.files` exactly
the entries classified missing — every other entry is left unchanged — and
afterwards `components` and `sections` are recomputed from the remaining
files, so every surviving section is backed by a remaining page file for
its route and every surviving component by a remaining file under the
components root; a section or component whose only backing files were
pruned no longer appears. -/
theorem pruneMissing_frame (hashFn : String → String) (config : Config)
    (state : TState) (disk : Disk) (st' : TState)
    (hne : (getProjectStatus hashFn config state disk).missing ≠ [])
    (h : pruneMissingApply hashFn config state disk = some st') :
    (∀ p, st'.files.lookup p = if onDisk disk p then state.files.lookup p else none) ∧
    st'.components = reconstructComponents st'.files config ∧
    reconstructSections state.sections st'.files config = some st'.sections ∧
    (∀ s ∈ st'.sections, sectionBacked config (st'.files.map Prod.fst) s) ∧
    (∀ c ∈ st'.components, componentBacked config (st'.files.map Prod.fst) c) := by
  simp only [pruneMissingApply] at h
  rw [if_neg (by simpa [List.isEmpty_iff] using hne)] at h
  cases hrs : reconstructSections state.sections
      ((getProjectStatus hashFn config state disk).missing.foldl
        (fun m p => eraseFM m p) state.files) config with
  | none => rw [hrs] at h; cases h
  | some secs =>
    rw [hrs] at h
    cases h
    have hmem_missing : ∀ p, p ∈ (getProjectStatus hashFn config state disk).missing ↔
        (∃ r, (p, r) ∈ state.files) ∧ onDisk disk p = false := by
      intro p
      constructor
      · intro hp
        rcases List.mem_map.mp hp with ⟨e, he, rfl⟩
        rcases List.mem_filter.mp he with ⟨h1, h2⟩
        simp only [decide_eq_true_eq] at h2
        exact ⟨⟨e.2, h1⟩, by simpa using h2⟩
      · rintro ⟨⟨r, hr⟩, hnd⟩
        exact List.mem_map.mpr ⟨(p, r), List.mem_filter.mpr ⟨hr, by simp [hnd]⟩, rfl⟩
    refine ⟨?_, rfl, hrs, ?_, ?_⟩
    · intro p
      rw [lookup_foldl_eraseFM]
      by_cases hd : onDisk disk p = true
      · rw [if_pos hd]
        have hnc : (getProjectStatus hashFn config state disk).missing.contains p = false := by
          by_cases hcp : (getProjectStatus hashFn config state disk).missing.contains p = true
          · rcases (hmem_missing p).mp (by simpa using hcp) with ⟨_, hfalse⟩
            rw [hd] at hfalse
            cases hfalse
          · simpa using hcp
        rw [hnc]
        simp
      · have hd' : onDisk disk p = false := by simpa using hd
        rw [if_neg hd]
        by_cases hcp : (getProjectStatus hashFn config state disk).missing.contains p = true
        · rw [hcp]
          simp
        · rw [(by simpa using hcp : (getProjectStatus hashFn config state disk).missing.contains p = false)]
          simp only [Bool.false_eq_true, if_false]
          cases hl : state.files.lookup p with
          | none => rfl
          | some r =>
            exfalso
            apply hcp
            have : p ∈ (getProjectStatus hashFn config state disk).missing :=
              (hmem_missing p).mpr ⟨⟨r, mem_of_lookup_eq_some _ _ _ hl⟩, hd'⟩
            simpa using this
    · exact reconstructSections_backed _ _ _ _ hrs
    · exact reconstructComponents_backed _ _

/-- C6 witness: pruning a ledger with one missing page file and one
present feature file, with both hypotheses discharged by evaluation. -/
theorem pruneMissing_frame_witness :
    ((getProjectStatus demoHash demoCfg
        (TState.mk [] [] [("src/pages/gone.astro", FileRecord.mk "route" none "HA" none none "T" false),
          ("src/features/feat/F.tsx", FileRecord.mk "feature-file" none "h:x" none none "T" false)])
        [("src/features/feat/F.tsx", "x")]).missing ≠ []) ∧
    ((∀ p, (TState.mk [] []
        [("src/features/feat/F.tsx", FileRecord.mk "feature-file" none "h:x" none none "T" false)]).files.lookup p =
      if onDisk [("src/features/feat/F.tsx", "x")] p then
        (TState.mk [] [] [("src/pages/gone.astro", FileRecord.mk "route" none "HA" none none "T" false),
          ("src/features/feat/F.tsx", FileRecord.mk "feature-file" none "h:x" none none "T" false)]).files.lookup p
      else none) ∧
    (TState.mk [] []
        [("src/features/feat/F.tsx", FileRecord.mk "feature-file" none "h:x" none none "T" false)]).components =
      reconstructComponents (TState.mk [] []
        [("src/features/feat/F.tsx", FileRecord.mk "feature-file" none "h:x" none none "T" false)]).files demoCfg ∧
    reconstructSections (TState.mk [] [] [("src/pages/gone.astro", FileRecord.mk "route" none "HA" none none "T" false),
        ("src/features/feat/F.tsx", FileRecord.mk "feature-file" none "h:x" none none "T" false)]).sections
      (TState.mk [] []
        [("src/features/feat/F.tsx", FileRecord.mk "feature-file" none "h:x" none none "T" false)]).files demoCfg =
      some (TState.mk [] []
        [("src/features/feat/F.tsx", FileRecord.mk "feature-file" none "h:x" none none "T" false)]).sections ∧
    (∀ s ∈ (TState.mk [] []
        [("src/features/feat/F.tsx", FileRecord.mk "feature-file" none "h:x" none none "T" false)]).sections,
      sectionBacked demoCfg ((TState.mk [] []
        [("src/features/feat/F.tsx", FileRecord.mk "feature-file" none "h:x" none none "T" false)]).files.map Prod.fst) s) ∧
    (∀ c ∈ (TState.mk [] []
        [("src/features/feat/F.tsx", FileRecord.mk "feature-file" none "h:x" none none "T" false)]).components,
      componentBacked demoCfg ((TState.mk [] []
        [("src/features/feat/F.tsx", FileRecord.mk "feature-file" none "h:x" none none "T" false)]).files.map Prod.fst) c)) :=
  ⟨by decide,
    pruneMissing_frame demoHash demoCfg
      (TState.mk [] [] [("src/pages/gone.astro", FileRecord.mk "route" none "HA" none none "T" false),
        ("src/features/feat/F.tsx", FileRecord.mk "feature-file" none "h:x" none none "T" false)])
      [("src/features/feat/F.tsx", "x")]
      (TState.mk [] []
        [("src/features/feat/F.tsx", FileRecord.mk "feature-file" none "h:x" none none "T" false)])
      (by decide) (by decide)⟩

/-! ### Sync lemmas -/

theorem syncUpdated_mem_keys (hashFn : String → String) (opts : SyncOpts)
    (config : Config) (state : TState) (disk : Disk) :
    ∀ x ∈ syncUpdated hashFn opts config state disk, x.1 ∈ state.files.map Prod.fst := by
  intro x hx
  simp only [syncUpdated] at hx
  rcases List.mem_filterMap.mp hx with ⟨e, he, hge⟩
  cases hd : disk.lookup e.1 with
  | none => rw [hd] at hge; cases hge
  | some c =>
    rw [hd] at hge
    have hge2 : (if hashFn c ≠ e.2.hash ∧
        (isTextorGenerated disk config.signatures e.1 = true ∨ opts.force = true) then
        some (e.1, hashFn c) else none) = some x := hge
    split_ifs at hge2
    cases hge2
    exact List.mem_map.mpr ⟨e, he, rfl⟩

theorem syncUpdated_keys_nodup (hashFn : String → String) (opts : SyncOpts)
    (config : Config) (state : TState) (disk : Disk)
    (hstate : (state.files.map Prod.fst).Nodup) :
    ((syncUpdated hashFn opts config state disk).map Prod.fst).Nodup := by
  refine hstate.sublist ?_
  simp only [syncUpdated]
  refine keys_filterMap_pairs_sublist _ _ ?_
  intro e x hge
  cases hd : disk.lookup e.1 with
  | none => rw [hd] at hge; cases hge
  | some c =>
    rw [hd] at hge
    have hge2 : (if hashFn c ≠ e.2.hash ∧
        (isTextorGenerated disk config.signatures e.1 = true ∨ opts.force = true) then
        some (e.1, hashFn c) else none) = some x := hge
    split_ifs at hge2
    cases hge2
    rfl

theorem syncAdded_mem_keys (hashFn : String → String) (opts : SyncOpts)
    (config : Config) (state : TState) (disk : Disk) :
    ∀ x ∈ syncAdded hashFn opts config state disk, x.1 ∈ syncManaged config state disk := by
  intro x hx
  simp only [syncAdded] at hx
  rcases List.mem_filterMap.mp hx with ⟨q, hq, hgq⟩
  cases hd : disk.lookup q with
  | none => rw [hd] at hgq; cases hgq
  | some c =>
    rw [hd] at hgq
    have hgq2 : (if isTextorGenerated disk config.signatures q = true ∨
        opts.includeAll = true then some (q, hashFn c) else none) = some x := hgq
    split_ifs at hgq2
    cases hgq2
    exact hq

theorem syncAdded_keys_nodup (hashFn : String → String) (opts : SyncOpts)
    (config : Config) (state : TState) (disk : Disk)
    (hdisk : (disk.map Prod.fst).Nodup) :
    ((syncAdded hashFn opts config state disk).map Prod.fst).Nodup := by
  have hman : (syncManaged config state disk).Nodup := by
    simp only [syncManaged, scanRoots]
    exact (hdisk.filter _).filter _
  refine hman.sublist ?_
  simp only [syncAdded]
  refine keys_filterMap_strings_sublist _ _ ?_
  intro q x hgq
  cases hd : disk.lookup q with
  | none => rw [hd] at hgq; cases hgq
  | some c =>
    rw [hd] at hgq
    have hgq2 : (if isTextorGenerated disk config.signatures q = true ∨
        opts.includeAll = true then some (q, hashFn c) else none) = some x := hgq
    split_ifs at hgq2
    cases hgq2
    rfl

/-- C5 counterexample: a tracked page file whose on-disk content changed
but no longer carries any recognized signature is classified modified, yet
a non-dry-run `sync` without `force` leaves its ledger hash untouched —
refuting that every modified entry gets its hash updated. -/
theorem sync_modified_without_signature_not_updated :
    demoHash "CA" ≠ "H0" ∧
    List.lookup "src/pages/a.astro" [("src/pages/a.astro", "CA")] = some "CA" ∧
    isTextorGenerated [("src/pages/a.astro", "CA")] demoCfg.signatures
      "src/pages/a.astro" = false ∧
    (syncApply demoHash (fun _ _ => "k") "T1" (SyncOpts.mk false false) demoCfg
      (TState.mk [] [] [("src/pages/a.astro",
        FileRecord.mk "route" none "H0" none none "T0" false)])
      [("src/pages/a.astro", "CA")]).map
        (fun st => st.files.lookup "src/pages/a.astro") =
      some (some (FileRecord.mk "route" none "H0" none none "T0" false)) := by
  refine ⟨by decide, by decide, by decide, by decide⟩

/-- C5 (amended): for every non-dry-run sync — every ledger entry whose
file is missing from disk is dropped; every entry classified modified
whose on-disk content still carries a recognized signature (or any
modified entry when `force` is set) gets its ledger hash updated to the
freshly computed disk hash with a fresh timestamp; every scanned disk file
not in the ledger whose content carries a recognized signature is added
with a freshly computed hash, without requiring `includeAll`; and
afterwards `components` and `sections` equal the
`reconstructComponents`/`reconstructSections` reconstruction from the
resulting files.  A modified entry that neither carries a signature nor is
forced keeps its old hash, as the counterexample shows. -/
theorem syncApply_spec (hashFn : String → String) (inferKind : String → Config → String)
    (now : String) (opts : SyncOpts) (config : Config) (state : TState) (disk : Disk)
    (st' : TState)
    (hdisk : (disk.map Prod.fst).Nodup)
    (hstate : (state.files.map Prod.fst).Nodup)
    (h : syncApply hashFn inferKind now opts config state disk = some st') :
    (∀ p r, state.files.lookup p = some r → disk.lookup p = none →
      st'.files.lookup p = none) ∧
    (∀ p r c, state.files.lookup p = some r → disk.lookup p = some c →
      hashFn c ≠ r.hash →
      (isTextorGenerated disk config.signatures p = true ∨ opts.force = true) →
      st'.files.lookup p =
        some { r with hash := hashFn c, timestamp := now, synced := true }) ∧
    (∀ p c, p ∈ scanRoots disk [config.pages, config.features, config.components] →
      state.files.lookup p = none → disk.lookup p = some c →
      isTextorGenerated disk config.signatures p = true →
      st'.files.lookup p =
        some (FileRecord.mk (inferKind p config) none (hashFn c) none none now true)) ∧
    st'.components = reconstructComponents st'.files config ∧
    reconstructSections state.sections st'.files config = some st'.sections := by
  have hcases : st'.files = syncFiles hashFn inferKind now opts config state disk ∧
      st'.components = reconstructComponents st'.files config ∧
      reconstructSections state.sections st'.files config = some st'.sections := by
    simp only [syncApply] at h
    by_cases hch : (syncAdded hashFn opts config state disk = [] ∧
        syncUpdated hashFn opts config state disk = [] ∧ syncMissing state disk = [])
    · rw [if_neg (not_not_intro hch)] at h
      have hFs : syncFiles hashFn inferKind now opts config state disk = state.files := by
        simp only [syncFiles, hch.1, hch.2.1, hch.2.2, List.foldl_nil]
      rw [hFs] at h ⊢
      cases hrs : reconstructSections state.sections state.files config with
      | none => rw [hrs] at h; cases h
      | some ns =>
        rw [hrs] at h
        have h2 : (if reconstructComponents state.files config = state.components ∧
            ns = state.sections then some state
            else some (TState.mk ns (reconstructComponents state.files config)
              state.files)) = some st' := h
        by_cases heq : reconstructComponents state.files config = state.components ∧
            ns = state.sections
        · rw [if_pos heq] at h2
          cases h2
          refine ⟨rfl, heq.1.symm, ?_⟩
          rw [hrs, heq.2]
        · rw [if_neg heq] at h2
          cases h2
          exact ⟨rfl, rfl, hrs⟩
    · rw [if_pos hch] at h
      cases hrs : reconstructSections state.sections
          (syncFiles hashFn inferKind now opts config state disk) config with
      | none => rw [hrs] at h; cases h
      | some secs =>
        rw [hrs] at h
        cases h
        exact ⟨rfl, rfl, hrs⟩
  refine ⟨?_, ?_, ?_, hcases.2.1, hcases.2.2⟩
  · intro p r hlr hdn
    rw [hcases.1]
    simp only [syncFiles]
    rw [lookup_foldl_eraseFM]
    have h1 : p ∈ state.files.map Prod.fst :=
      (lookup_isSome_iff_mem_keys _ _).mp (by simp [hlr])
    have hmem : p ∈ syncMissing state disk := by
      simp only [syncMissing]
      refine List.mem_filter.mpr ⟨h1, ?_⟩
      simp [onDisk, hdn]
    rw [if_pos (by simpa using hmem)]
  · intro p r c hlr hd hneq hgen
    rw [hcases.1]
    simp only [syncFiles]
    rw [lookup_foldl_eraseFM]
    have hpd : onDisk disk p = true := by simp [onDisk, hd]
    have hkey : p ∈ state.files.map Prod.fst :=
      (lookup_isSome_iff_mem_keys _ _).mp (by simp [hlr])
    have hnm : p ∉ syncMissing state disk := by
      simp only [syncMissing]
      intro hx
      rcases List.mem_filter.mp hx with ⟨_, hx2⟩
      simp [hpd] at hx2
    rw [if_neg (by simpa using hnm)]
    have hupd : (p, hashFn c) ∈ syncUpdated hashFn opts config state disk := by
      simp only [syncUpdated]
      refine List.mem_filterMap.mpr ⟨(p, r), mem_of_lookup_eq_some _ _ _ hlr, ?_⟩
      have hred : (match disk.lookup p with
          | none => none
          | some cc => if hashFn cc ≠ r.hash ∧
              (isTextorGenerated disk config.signatures p = true ∨ opts.force = true) then
              some (p, hashFn cc)
            else none) = some (p, hashFn c) := by
        rw [hd]
        show (if hashFn c ≠ r.hash ∧
            (isTextorGenerated disk config.signatures p = true ∨ opts.force = true) then
            some (p, hashFn c) else none) = some (p, hashFn c)
        rw [if_pos ⟨hneq, hgen⟩]
      exact hred
    have hnotadded : ∀ e ∈ syncAdded hashFn opts config state disk, e.1 ≠ p := by
      intro e he hep
      have hm := syncAdded_mem_keys hashFn opts config state disk e he
      rw [hep] at hm
      simp only [syncManaged] at hm
      rcases List.mem_filter.mp hm with ⟨_, hcond⟩
      simp only [decide_eq_true_eq] at hcond
      exact hcond ⟨by simpa using hkey, hpd⟩
    rw [lookup_foldl_updateFM_mem (syncUpdated hashFn opts config state disk)
      (fun pc r => { r with hash := pc.2, timestamp := now, synced := true }) _ p (hashFn c)
      hupd (syncUpdated_keys_nodup hashFn opts config state disk hstate)]
    rw [lookup_foldl_setFM_not_mem _ _ _ p hnotadded]
    rw [hlr]
    rfl
  · intro p c hscan hln hd hgen
    rw [hcases.1]
    simp only [syncFiles]
    rw [lookup_foldl_eraseFM]
    have hpd : onDisk disk p = true := by simp [onDisk, hd]
    have hnkey : p ∉ state.files.map Prod.fst := by
      intro hx
      have hy := (lookup_isSome_iff_mem_keys state.files p).mpr hx
      rw [hln] at hy
      cases hy
    have hnm : p ∉ syncMissing state disk := by
      simp only [syncMissing]
      intro hx
      exact hnkey (List.mem_of_mem_filter hx)
    rw [if_neg (by simpa using hnm)]
    have hman : p ∈ syncManaged config state disk := by
      simp only [syncManaged]
      refine List.mem_filter.mpr ⟨hscan, ?_⟩
      simp only [decide_eq_true_eq]
      rintro ⟨hkp, _⟩
      exact hnkey (by simpa using hkp)
    have hadd : (p, hashFn c) ∈ syncAdded hashFn opts config state disk := by
      simp only [syncAdded]
      refine List.mem_filterMap.mpr ⟨p, hman, ?_⟩
      have hred : (match disk.lookup p with
          | none => none
          | some cc =>
            if isTextorGenerated disk config.signatures p = true ∨ opts.includeAll = true then
              some (p, hashFn cc)
            else none) = some (p, hashFn c) := by
        rw [hd]
        show (if isTextorGenerated disk config.signatures p = true ∨
            opts.includeAll = true then some (p, hashFn c) else none) = some (p, hashFn c)
        rw [if_pos (Or.inl hgen)]
      exact hred
    have hnupd : ∀ e ∈ syncUpdated hashFn opts config state disk, e.1 ≠ p := by
      intro e he hep
      have hm := syncUpdated_mem_keys hashFn opts config state disk e he
      rw [hep] at hm
      exact hnkey hm
    rw [lookup_foldl_updateFM_not_mem _ _ _ p hnupd]
    rw [lookup_foldl_setFM_mem (syncAdded hashFn opts config state disk)
      (fun pc => FileRecord.mk (inferKind pc.1 config) none pc.2 none none now true) _ p
      (hashFn c) hadd (syncAdded_keys_nodup hashFn opts config state disk hdisk)]

/-- C5 witness: the amended sync specification at a concrete instance —
a missing entry, a modified signature-carrying entry, and an untracked
generated file — with every hypothesis discharged by evaluation. -/
theorem syncApply_spec_witness :
    ((demoSyncDisk.map Prod.fst).Nodup ∧ (demoSyncState.files.map Prod.fst).Nodup ∧
      syncApply demoHash (fun _ _ => "k") "T1" (SyncOpts.mk false false) demoCfg
        demoSyncState demoSyncDisk = some demoSyncResult) ∧
    ((∀ p r, demoSyncState.files.lookup p = some r → demoSyncDisk.lookup p = none →
      demoSyncResult.files.lookup p = none) ∧
    (∀ p r c, demoSyncState.files.lookup p = some r → demoSyncDisk.lookup p = some c →
      demoHash c ≠ r.hash →
      (isTextorGenerated demoSyncDisk demoCfg.signatures p = true ∨
        (SyncOpts.mk false false).force = true) →
      demoSyncResult.files.lookup p =
        some { r with hash := demoHash c, timestamp := "T1", synced := true }) ∧
    (∀ p c, p ∈ scanRoots demoSyncDisk [demoCfg.pages, demoCfg.features, demoCfg.components] →
      demoSyncState.files.lookup p = none → demoSyncDisk.lookup p = some c →
      isTextorGenerated demoSyncDisk demoCfg.signatures p = true →
      demoSyncResult.files.lookup p =
        some (FileRecord.mk ((fun _ _ => "k") p demoCfg) none (demoHash c) none none "T1" true)) ∧
    demoSyncResult.components = reconstructComponents demoSyncResult.files demoCfg ∧
    reconstructSections demoSyncState.sections demoSyncResult.files demoCfg =
      some demoSyncResult.sections) :=
  ⟨⟨by decide, by decide, by decide⟩,
    syncApply_spec demoHash (fun _ _ => "k") "T1" (SyncOpts.mk false false) demoCfg
      demoSyncState demoSyncDisk demoSyncResult (by decide) (by decide) (by decide)⟩

end Textor
